import Mathlib

/-!
# Verification of the `searcher` TF-IDF search engine

Shallow embedding of the Go package `searcher` (files `Searcher.go` and the
two unnamed source files containing the indexer and the data model).

Modelling conventions, stated once here:

* `float64` is idealized as `ℝ`; the loop accumulations in `magnitude`,
  `crossProduct` and `euclidean_norm` iterate a Go map in unspecified order,
  so they are modelled as the sum of the corresponding list (ℝ addition is
  commutative/associative, which is exactly the idealization).  `math.Sqrt`
  is `Real.sqrt` and `math.Log` is `Real.log`; the Lean functions differ
  from Go's only at nonpositive arguments (where Go yields `-Inf`/NaN),
  which the concrete scenarios below avoid by using nonempty blog
  collections.  The single place where the source can produce a non-numeric
  `float64` value out of numeric inputs is the division in
  `cosineSimilarity`; its result is modelled by `GoFloat`, which makes the
  IEEE-754 outcomes (`NaN`, `±Inf`) of dividing by zero explicit.
* `bson.ObjectId` is modelled as `String`.
* Go maps built by insertion (`map[tokenizer.Token]int`, `map[string]float64`)
  are modelled as association lists with overwrite-on-assign semantics
  (`setA`); reads of missing keys yield the zero value, as in Go.
* The MongoDB collections are modelled as lists of documents.  `Insert`
  appends.  `Find(sel).One(&row)` with a struct target decodes the first
  matching document into `row` and leaves `row` untouched when nothing
  matches (the source discards the `ErrNotFound` error and keeps reusing the
  same variable across loop iterations — this variable reuse is modelled
  faithfully).  `RemoveAll` removes every matching document; `Distinct`
  returns the distinct values (modelled in first-occurrence order); `Count`
  is the collection size.  `retrieve`'s query `{"term": {"$in": terms}}` is
  well-formed and matches entries whose `term` is in `terms`.  Three other
  call sites do NOT do what their surface syntax suggests, and the model
  follows the actual driver/server behavior:
  - `updateIDF`'s `Update({"term": t}, {"set": {...}})` carries no `$`
    operator, so MongoDB REPLACES the whole matched document with
    `{set: {idf, total_blogs}}`.  The replacement (constructor
    `WeightDoc.replaced`) has no `term` field, so no later term lookup
    matches it.  An `Update` whose selector matches nothing does nothing.
  - `queryRank`'s `Find({"term": i}).Select({"idf": 1}).One(&idf)` targets a
    bare `float64`; mgo's bson decoder cannot unmarshal a document into a
    float64, so `One` fails whether or not a record matched, the discarded
    error leaves `idf` at its prior value, and since it is never assigned it
    stays at its initial `0.0` for every term.
  - `rank`'s `Find({"$in": {"term": terms}, "blog_id": i})` uses `$in` as a
    top-level operator, which the server rejects; `.All(&blogTerms)` decodes
    no documents and resets the slice each iteration, so every candidate's
    retrieved entry list is empty.
* The tokenizer (`tokenizer.LongLexto`) is an external collaborator; it is
  modelled as an arbitrary function `tok : String → List Token` together with
  the stream state `tokStream` kept in `DBConnector`: `SetText` replaces the
  stream and `HasNext`/`Next` consume it, so a consumer leaves the stream
  empty.  `RemoveIndexes` never calls `SetText` and therefore iterates
  whatever is left of the stream.
* `sort.Sort` is an unspecified comparison sort; it is modelled as
  `List.insertionSort` with the source's `Less`.  Every fact proved below
  about the sorted output holds for any comparison sort (permutation facts,
  or score facts stated for each returned document individually).
-/

namespace Searcher

/-- A token produced by the external tokenizer, exposing its text and its
whitespace/markup classification (`IsSpace()` / `IsHTML()`). -/
structure Token where
  text : String
  isSpace : Bool
  isHTML : Bool
deriving DecidableEq, Repr

/-- The record shape `Term_Weight` of the source: the per-term corpus
statistics. -/
structure Term_Weight where
  term : String
  total_blogs : Int
  idf : ℝ

/-- A document of the `term_weight` collection: either a well-formed record,
or the `{set: {idf, total_blogs}}` document left behind by the operator-free
`Update` (a full replacement that destroys the `term` field).  A replacement
document is never matched by a term lookup again. -/
inductive WeightDoc where
  | record (w : Term_Weight)
  | replaced (total_blogs : Int) (idf : ℝ)

/-- Record of collection `inverted_index` (`Inverted_Index` in the source). -/
structure Inverted_Index where
  term : String
  blog_id : String
  tf : ℝ
  tf_idf : ℝ

/-- A blog document (`Blog` in the source). -/
structure Blog where
  blog_id : String
  title : String
  content : String
  tags : List String

/-- The state a `DBConnector` operates on: the three MongoDB collections and
the tokenizer's remaining token stream. -/
structure DBState where
  termTable : List Inverted_Index
  weightTable : List WeightDoc
  blogTable : List Blog
  tokStream : List Token

/-- `count_occurences` step for one token: spaces and markup are skipped, a
known token's count is incremented, a new token is registered with count 1.
The Go map is modelled as an association list in first-occurrence order. -/
def addOccurrence (frequency : List (Token × Nat)) (token : Token) : List (Token × Nat) :=
  if token.isSpace || token.isHTML then frequency
  else
    match frequency.find? (fun p => p.1 == token) with
    | some _ => frequency.map (fun p => if p.1 == token then (p.1, p.2 + 1) else p)
    | none => frequency ++ [(token, 1)]

/-- `count_occurences`: tokenizes the content and counts occurrences of each
token, ignoring whitespace and markup tokens.  The tokenizer stream is the
argument; the caller (`AddIndexes`) records that the stream is consumed. -/
def count_occurences (toks : List Token) : List (Token × Nat) :=
  toks.foldl addOccurrence []

/-- `euclidean_norm`: square root of the sum of the squared occurrence
counts. -/
noncomputable def euclidean_norm (frequency : List (Token × Nat)) : ℝ :=
  Real.sqrt ((frequency.map (fun p => ((p.2 * p.2 : ℕ) : ℝ))).sum)

/-- `term_freq`: occurrences divided by the normalization value. -/
noncomputable def term_freq (occurences : ℤ) (normalization : ℝ) : ℝ :=
  (occurences : ℝ) / normalization

/-- `inverse_document_freq`: natural logarithm of total documents divided by
documents containing the term. -/
noncomputable def inverse_document_freq (termBlogs : ℤ) (totalBlogs : ℤ) : ℝ :=
  Real.log ((totalBlogs : ℝ) / (termBlogs : ℝ))

/-- `tf_idf`: term frequency times inverse document frequency. -/
noncomputable def tf_idf (tf : ℝ) (idf : ℝ) : ℝ :=
  tf * idf

/-- The zero value of `Term_Weight`, as produced by `Term_Weight{}` in Go. -/
noncomputable def emptyTW : Term_Weight := ⟨"", 0, 0⟩

/-- Model of `weightTable.Find({"term": t}).One(&row)`'s lookup (with a
struct target, as in `updateIDF` and `newIndexes`): the first well-formed
record whose `term` is `t`.  Replacement documents have no `term` field and
never match. -/
noncomputable def findRec : List WeightDoc → String → Option Term_Weight
  | [], _ => none
  | WeightDoc.record w :: ds, t => if w.term = t then some w else findRec ds t
  | WeightDoc.replaced _ _ :: ds, t => findRec ds t

/-- Model of `weightTable.Update({"term": t}, {"set": {total_blogs := c,
idf := v}})`: the update document has no `$` operator, so MongoDB REPLACES
the first matching document wholesale with `{set: {idf: v, total_blogs: c}}`
— a document without a `term` field.  No match leaves the collection
unchanged. -/
noncomputable def updateTW : List WeightDoc → String → Int → ℝ → List WeightDoc
  | [], _, _, _ => []
  | WeightDoc.record w :: ds, t, c, v =>
      if w.term = t then WeightDoc.replaced c v :: ds
      else WeightDoc.record w :: updateTW ds t c v
  | WeightDoc.replaced n x :: ds, t, c, v =>
      WeightDoc.replaced n x :: updateTW ds t c v

/-- One iteration of the `updateIDF` loop.  The accumulator carries the
weight collection and the `weightRow` variable, which the source declares
once before the loop: `Find(...).One(&weightRow)` overwrites it only when a
record matches, so on a miss it retains the value fetched for an earlier
term. -/
noncomputable def updateIDFStep (totalBlogs : ℤ) (acc : List WeightDoc × Term_Weight)
    (key : Token) : List WeightDoc × Term_Weight :=
  let weightRow := (findRec acc.1 key.text).getD acc.2
  if weightRow.term = "" then
    (acc.1 ++ [WeightDoc.record ⟨key.text, 1, inverse_document_freq 1 totalBlogs⟩], weightRow)
  else
    (updateTW acc.1 key.text (weightRow.total_blogs + 1)
      (inverse_document_freq (weightRow.total_blogs + 1) totalBlogs), weightRow)

/-- `updateIDF`: for each distinct token of the document, register it in the
term-weight collection with document-frequency 1, or run the (replacing,
see `updateTW`) update with the incremented count and the idf recomputed
from the current blog count. -/
noncomputable def updateIDF (s : DBState) (frequency : List (Token × Nat)) : DBState :=
  { s with weightTable :=
      ((frequency.map Prod.fst).foldl (updateIDFStep (s.blogTable.length : ℤ))
        (s.weightTable, emptyTW)).1 }

/-- One iteration of the `newIndexes` loop.  The accumulator carries the
inverted-index table and the `idf` variable (a `Term_Weight` struct, into
which `One` CAN decode), which the source declares once before the loop and
which a failed lookup leaves untouched; the weight collection is only read
here. -/
noncomputable def newIndexesStep (wt : List WeightDoc) (blogID : String) (norm : ℝ)
    (acc : List Inverted_Index × Term_Weight) (kv : Token × Nat) :
    List Inverted_Index × Term_Weight :=
  let idf := (findRec wt kv.1.text).getD acc.2
  let tf := term_freq (kv.2 : ℤ) norm
  (acc.1 ++ [⟨kv.1.text, blogID, tf, tf_idf tf idf.idf⟩], idf)

/-- `newIndexes`: insert one inverted-index entry per distinct token of the
document, with its `tf` and `tf * idf` weights. -/
noncomputable def newIndexes (s : DBState) (frequency : List (Token × Nat))
    (blogID : String) (norm : ℝ) : DBState :=
  { s with termTable :=
      (frequency.foldl (newIndexesStep s.weightTable blogID norm)
        (s.termTable, emptyTW)).1 }

/-- `AddIndexes` assembles the blog's text blob from title, content and
tags. -/
def blobOf (blog : Blog) : String :=
  blog.tags.foldl (fun content i => content ++ " " ++ i) (blog.title ++ " " ++ blog.content)

/-- `AddIndexes`: tokenize the blob (consuming the tokenizer stream), count
occurrences, compute the Euclidean norm, update the term weights, then write
the inverted-index entries. -/
noncomputable def AddIndexes (tok : String → List Token) (blog : Blog) (s : DBState) : DBState :=
  let frequency := count_occurences (tok (blobOf blog))
  let norm := euclidean_norm frequency
  let s1 : DBState := { s with tokStream := [] }
  let s2 := updateIDF s1 frequency
  newIndexes s2 frequency blog.blog_id norm

/-- `RemoveIndexes`: the source iterates whatever is left of the tokenizer
stream (it never calls `SetText`).  Inside the loop, `Find({"term": token})`
compares the stored string with the whole raw token value (the source omits
`.GetText()` here), so no document matches, `One` leaves `weightRow`
unchanged, and the `RemoveAll` with the same selector removes nothing.
Finally every inverted-index entry of the blog is removed. -/
noncomputable def RemoveIndexes (blog : Blog) (s : DBState) : DBState :=
  let wtLoop := s.tokStream.foldl
    (fun (acc : List WeightDoc × Term_Weight) (_token : Token) =>
      let weightRow := acc.2
      if weightRow.total_blogs ≤ 1 then (acc.1.filter (fun _ => true), weightRow)
      else (acc.1, weightRow))
    (s.weightTable, emptyTW)
  { s with tokStream := [],
           weightTable := wtLoop.1,
           termTable := s.termTable.filter (fun e => e.blog_id != blog.blog_id) }

/-- The term-collection loop of `Query`: distinct non-whitespace tokens of
the query text, in first-occurrence order.  The `termFound` set always equals
the set of collected terms, so it is modelled by membership in the list. -/
def queryTerms (toks : List Token) : List String :=
  toks.foldl
    (fun terms token =>
      if terms.contains token.text then terms
      else if token.isSpace then terms
      else terms ++ [token.text])
    []

/-- First-occurrence deduplication; model of `Distinct("blog_id")`. -/
def distinctFirstSeen (l : List String) : List String :=
  l.foldl (fun acc x => if acc.contains x then acc else acc ++ [x]) []

/-- `retrieve`: the distinct blog ids of the inverted-index entries whose
term belongs to the query terms (this query, `{"term": {"$in": terms}}`, is
well-formed). -/
def retrieve (tt : List Inverted_Index) (terms : List String) : List String :=
  distinctFirstSeen ((tt.filter (fun e => terms.contains e.term)).map (fun e => e.blog_id))

/-- Assignment to a Go `map[string]float64`, modelled on association lists:
overwrite an existing key, otherwise append. -/
noncomputable def setA (m : List (String × ℝ)) (k : String) (v : ℝ) : List (String × ℝ) :=
  match m.find? (fun p => p.1 == k) with
  | some _ => m.map (fun p => if p.1 == k then (k, v) else p)
  | none => m ++ [(k, v)]

/-- Read of a Go `map[string]float64`: the stored value, or the zero value
`0.0` for a missing key. -/
noncomputable def lookupA (m : List (String × ℝ)) (k : String) : ℝ :=
  ((m.find? (fun p => p.1 == k)).map Prod.snd).getD 0

/-- `queryRank`: the source runs `Find({"term": i}).Select({"idf": 1}).One(&idf)`
with `idf` a bare `float64`.  mgo's bson decoder cannot unmarshal a document
into a float64, so `One` fails whether or not a record matched, the error is
discarded, and `idf` keeps its prior value — which remains its initial `0.0`
throughout the loop.  Every query term is therefore mapped to 0.  (The
lookup still runs; its result is never decoded, which the discarded binding
records.) -/
noncomputable def queryRank (wt : List WeightDoc) (terms : List String) :
    List (String × ℝ) :=
  (terms.foldl
    (fun (acc : List (String × ℝ) × ℝ) t =>
      let _row := findRec wt t
      (setA acc.1 t acc.2, acc.2))
    ([], 0)).1

/-- The `Find` in `rank` step 3: the source's query document
`{"$in": {"term": terms}, "blog_id": i}` uses `$in` as a top-level operator,
which MongoDB rejects; `.All(&blogTerms)` decodes no documents and resets
the slice each iteration, so every candidate's retrieved entry list is
empty. -/
def findBlogTerms (_tt : List Inverted_Index) (_terms : List String) (_blogID : String) :
    List Inverted_Index :=
  []

/-- `arrangeTerms`: map each retrieved entry's term to its `tf_idf`. -/
noncomputable def arrangeTerms (terms : List Inverted_Index) : List (String × ℝ) :=
  terms.foldl (fun results i => setA results i.term i.tf_idf) []

/-- `crossProduct`: sum over the blog vector's entries of the entry value
times the query vector's value at the same key. -/
noncomputable def crossProduct (query : List (String × ℝ)) (blog : List (String × ℝ)) : ℝ :=
  (blog.map (fun p => p.2 * lookupA query p.1)).sum

/-- `magnitude`: square root of the sum of the squared vector values. -/
noncomputable def magnitude (vector : List (String × ℝ)) : ℝ :=
  Real.sqrt ((vector.map (fun p => p.2 * p.2)).sum)

/-- The value of a Go `float64` expression that may not be an ordinary
number: a real number, an infinity, or NaN. -/
inductive GoFloat where
  | num (x : ℝ)
  | pinf
  | ninf
  | nan

/-- IEEE-754 division of two ordinary `float64` numbers: `0/0` is NaN,
`x/0` for `x ≠ 0` is a signed infinity, otherwise the quotient. -/
noncomputable def goDiv (x y : ℝ) : GoFloat :=
  if y = 0 then (if x = 0 then GoFloat.nan else if 0 < x then GoFloat.pinf else GoFloat.ninf)
  else GoFloat.num (x / y)

/-- Go's `<` on `float64`: any comparison involving NaN is false. -/
def GoFloat.lt : GoFloat → GoFloat → Prop
  | GoFloat.num x, GoFloat.num y => x < y
  | GoFloat.ninf, GoFloat.num _ => True
  | GoFloat.ninf, GoFloat.pinf => True
  | GoFloat.num _, GoFloat.pinf => True
  | _, _ => False

noncomputable instance : DecidableRel GoFloat.lt := fun a b => by
  cases a <;> cases b <;> simp only [GoFloat.lt] <;> infer_instance

/-- Go's `<=` on `float64`: any comparison involving NaN is false. -/
def GoFloat.le : GoFloat → GoFloat → Prop
  | GoFloat.num x, GoFloat.num y => x ≤ y
  | GoFloat.ninf, GoFloat.num _ => True
  | GoFloat.ninf, GoFloat.ninf => True
  | GoFloat.ninf, GoFloat.pinf => True
  | GoFloat.num _, GoFloat.pinf => True
  | GoFloat.pinf, GoFloat.pinf => True
  | _, _ => False

/-- `cosineSimilarity`: cross product over the product of the magnitudes.
The division is the one place the pipeline can produce NaN. -/
noncomputable def cosineSimilarity (query : List (String × ℝ)) (blog : List (String × ℝ)) :
    GoFloat :=
  goDiv (crossProduct query blog) (magnitude query * magnitude blog)

/-- The `Similarity` ranking record. -/
structure Similarity where
  blog : String
  cosine : GoFloat

/-- The cosine score `rank` computes for one candidate: the query vector from
`queryRank` against the blog vector assembled by `arrangeTerms` from the
entries fetched for that blog.  (`rank` computes the query vector once
outside its loop; `queryRank` is pure, so factoring it into this definition
is value-preserving.) -/
noncomputable def queryScore (s : DBState) (terms : List String) (blogID : String) : GoFloat :=
  cosineSimilarity (queryRank s.weightTable terms)
    (arrangeTerms (findBlogTerms s.termTable terms blogID))

/-- `rank`: score every candidate, sort with `Similarities.Less`
(`slice[i].cosine < slice[j].cosine`), and return the blog ids in the sorted
order. -/
noncomputable def rank (s : DBState) (terms : List String) (blogs : List String) :
    List String :=
  let results := blogs.map (fun i => Similarity.mk i (queryScore s terms i))
  (List.insertionSort (fun a b => GoFloat.lt a.cosine b.cosine) results).map Similarity.blog

/-- `Query`: tokenize the query text into distinct non-whitespace terms,
retrieve the candidate blogs, rank them.  (The tokenizer stream is consumed;
the returned value is the id list.) -/
noncomputable def Query (tok : String → List Token) (s : DBState) (keyword : String) :
    List String :=
  let terms := queryTerms (tok keyword)
  let blogs := retrieve s.termTable terms
  rank s terms blogs

/-! ## Proof-layer helper definitions -/

/-- Whether a weight document is a well-formed record for term `t`. -/
def isRecOf : WeightDoc → String → Bool
  | WeightDoc.record w, t => w.term == t
  | WeightDoc.replaced _ _, _ => false

/-- The number of well-formed records for term `t` in the collection. -/
def recCount (wt : List WeightDoc) (t : String) : Nat :=
  (wt.filter (fun d => isRecOf d t)).length

/-! ## Concrete scenario data -/

/-- The token `cat`. -/
def catTok : Token := ⟨"cat", false, false⟩

/-- The token `dog`. -/
def dogTok : Token := ⟨"dog", false, false⟩

/-- A whitespace token. -/
def spaceTok : Token := ⟨" ", true, false⟩

/-- A markup token, as classified by `IsHTML()`. -/
def htmlTok : Token := ⟨"<b>", false, true⟩

/-- Tokenizer for the ranking scenario: `"cat dog"` tokenizes to
`cat`, a space, `dog`. -/
def tokC1 : String → List Token :=
  fun s => if s = "cat dog" then [catTok, spaceTok, dogTok] else []

/-- Store for the ranking-order scenario: two candidate blogs sharing both
query terms. -/
noncomputable def stateC1 : DBState :=
  { termTable := [⟨"cat", "D1", 1, 3⟩, ⟨"dog", "D1", 1, 4⟩,
                  ⟨"cat", "D2", 1, 4⟩, ⟨"dog", "D2", 1, 3⟩],
    weightTable := [WeightDoc.record ⟨"cat", 1, 3⟩, WeightDoc.record ⟨"dog", 1, 4⟩],
    blogTable := [],
    tokStream := [] }

/-- Store for the statistics-update scenario: a three-blog corpus whose
weight collection knows only `cat` (in one blog). -/
noncomputable def stateC2 : DBState :=
  { termTable := [],
    weightTable := [WeightDoc.record ⟨"cat", 1, inverse_document_freq 1 3⟩],
    blogTable := [⟨"B1", "", "", []⟩, ⟨"B2", "", "", []⟩, ⟨"B3", "", "", []⟩],
    tokStream := [] }

/-- The document of the removal and indexing scenarios: title `cat`, empty
content, no tags (blob `"cat "`). -/
def blogD : Blog := ⟨"D1", "cat", "", []⟩

/-- A second single-term document (`cat` again), and a markup-only one. -/
def blogD2 : Blog := ⟨"D2", "cat", "", []⟩

def blogH : Blog := ⟨"D3", "<b>", "", []⟩

/-- Tokenizer for the removal scenario: the blob of `blogD` (`"cat "`)
tokenizes to `cat` and a space. -/
def tokC8 : String → List Token :=
  fun s => if s = "cat " then [catTok, spaceTok] else []

/-- A one-blog corpus with empty index stores. -/
noncomputable def stateC8 : DBState :=
  { termTable := [], weightTable := [], blogTable := [blogD], tokStream := [] }

/-- The store used for the zero-magnitude scenario: the single term `cat`
occurs in every blog of a one-blog corpus, so its idf — and hence the stored
`tf_idf` of the single entry of blog `D1` — is zero. -/
noncomputable def stateC4 : DBState :=
  { termTable := [⟨"cat", "D1", 1, 0⟩],
    weightTable := [WeightDoc.record ⟨"cat", 1, 0⟩],
    blogTable := [⟨"B1", "", "", []⟩],
    tokStream := [] }

/-- Tokenizer used by the concrete query evaluations: `"cat"` tokenizes to
the single indexable token `cat`. -/
def tokC4 : String → List Token :=
  fun s => if s = "cat" then [⟨"cat", false, false⟩] else []

/-- Store for the query-vectorization scenario: `cat` known, `dog` not. -/
noncomputable def stateC3 : DBState :=
  { termTable := [⟨"cat", "D1", 1, 0⟩],
    weightTable := [WeightDoc.record ⟨"cat", 1, 0⟩],
    blogTable := [blogD],
    tokStream := [] }

/-- Tokenizer covering the witness scenarios. -/
def tokW : String → List Token :=
  fun s =>
    if s = "cat " then [catTok, spaceTok]
    else if s = "cat" then [catTok]
    else if s = "<b> " then [htmlTok, spaceTok]
    else if s = "<b>" then [htmlTok]
    else []

/-- A fresh, empty store. -/
def stateEmpty : DBState := ⟨[], [], [], []⟩

/-- A fresh store over a two-blog corpus. -/
noncomputable def stateB : DBState :=
  { termTable := [], weightTable := [], blogTable := [blogD, blogD2], tokStream := [] }

/-! ## Basic lemmas about the term collection, retrieval and ranking -/

lemma mem_foldl_queryTerms (toks : List Token) (acc : List String) (u : String) :
    u ∈ toks.foldl
      (fun terms token =>
        if terms.contains token.text then terms
        else if token.isSpace then terms
        else terms ++ [token.text]) acc ↔
    u ∈ acc ∨ ∃ t ∈ toks, t.isSpace = false ∧ t.text = u := by
  induction toks generalizing acc with
  | nil => simp
  | cons t ts ih =>
    simp only [List.foldl_cons]
    rw [ih]
    by_cases h1 : acc.contains t.text
    · simp only [h1, if_true]
      constructor
      · rintro (h | h)
        · exact Or.inl h
        · obtain ⟨t', ht', hs, hu⟩ := h
          exact Or.inr ⟨t', List.mem_cons_of_mem _ ht', hs, hu⟩
      · rintro (h | ⟨t', ht', hs, hu⟩)
        · exact Or.inl h
        · rcases List.mem_cons.mp ht' with rfl | ht'
          · subst hu
            exact Or.inl (by simpa using h1)
          · exact Or.inr ⟨t', ht', hs, hu⟩
    · by_cases h2 : t.isSpace
      · simp only [h1, if_false, h2, if_true]
        constructor
        · rintro (h | ⟨t', ht', hs, hu⟩)
          · exact Or.inl h
          · exact Or.inr ⟨t', List.mem_cons_of_mem _ ht', hs, hu⟩
        · rintro (h | ⟨t', ht', hs, hu⟩)
          · exact Or.inl h
          · rcases List.mem_cons.mp ht' with rfl | ht'
            · rw [h2] at hs; cases hs
            · exact Or.inr ⟨t', ht', hs, hu⟩
      · simp only [h1, if_false, h2, if_false]
        constructor
        · rintro (h | ⟨t', ht', hs, hu⟩)
          · rcases List.mem_append.mp h with h | h
            · exact Or.inl h
            · exact Or.inr ⟨t, List.mem_cons_self _ _, by simpa using h2,
                (List.mem_singleton.mp h).symm⟩
          · exact Or.inr ⟨t', List.mem_cons_of_mem _ ht', hs, hu⟩
        · rintro (h | ⟨t', ht', hs, hu⟩)
          · exact Or.inl (List.mem_append_left _ h)
          · rcases List.mem_cons.mp ht' with rfl | ht'
            · exact Or.inl (List.mem_append_right _ (by simpa using hu.symm))
            · exact Or.inr ⟨t', ht', hs, hu⟩

/-- A string is a collected query term exactly when some non-whitespace token
of the query has that text (markup tokens are not excluded by `Query`). -/
lemma mem_queryTerms_iff (toks : List Token) (u : String) :
    u ∈ queryTerms toks ↔ ∃ t ∈ toks, t.isSpace = false ∧ t.text = u := by
  unfold queryTerms
  rw [mem_foldl_queryTerms]
  simp

lemma mem_foldl_distinctFirstSeen (l : List String) (acc : List String) (x : String) :
    x ∈ l.foldl (fun acc x => if acc.contains x then acc else acc ++ [x]) acc ↔
    x ∈ acc ∨ x ∈ l := by
  induction l generalizing acc with
  | nil => simp
  | cons y ys ih =>
    simp only [List.foldl_cons]
    by_cases h : y ∈ acc
    · rw [if_pos (by simpa using h), ih]
      constructor
      · rintro (hx | hx)
        · exact Or.inl hx
        · exact Or.inr (List.mem_cons_of_mem _ hx)
      · rintro (hx | hx)
        · exact Or.inl hx
        · rcases List.mem_cons.mp hx with rfl | hx
          · exact Or.inl h
          · exact Or.inr hx
    · rw [if_neg (by simpa using h), ih]
      constructor
      · rintro (hx | hx)
        · rcases List.mem_append.mp hx with hx | hx
          · exact Or.inl hx
          · exact Or.inr (List.mem_cons.mpr (Or.inl (List.mem_singleton.mp hx)))
        · exact Or.inr (List.mem_cons_of_mem _ hx)
      · rintro (hx | hx)
        · exact Or.inl (List.mem_append_left _ hx)
        · rcases List.mem_cons.mp hx with rfl | hx
          · exact Or.inl (List.mem_append_right _ (List.mem_singleton.mpr rfl))
          · exact Or.inr hx

lemma mem_distinctFirstSeen (l : List String) (x : String) :
    x ∈ distinctFirstSeen l ↔ x ∈ l := by
  simpa [distinctFirstSeen] using mem_foldl_distinctFirstSeen l [] x

/-- A blog id is retrieved exactly when one of its inverted-index entries
carries a query term. -/
lemma mem_retrieve_iff (tt : List Inverted_Index) (terms : List String) (i : String) :
    i ∈ retrieve tt terms ↔ ∃ e ∈ tt, e.term ∈ terms ∧ e.blog_id = i := by
  unfold retrieve
  rw [mem_distinctFirstSeen]
  simp only [List.mem_map, List.mem_filter]
  constructor
  · rintro ⟨e, ⟨he, hterm⟩, rfl⟩
    exact ⟨e, he, by simpa using hterm, rfl⟩
  · rintro ⟨e, he, hterm, rfl⟩
    exact ⟨e, ⟨he, by simpa using hterm⟩, rfl⟩

/-- `rank` returns exactly the candidate ids it was given, reordered: it
appends one scored record per candidate, sorts them, and projects the ids. -/
lemma rank_perm (s : DBState) (terms : List String) (blogs : List String) :
    (rank s terms blogs).Perm blogs := by
  unfold rank
  have h1 := List.perm_insertionSort
    (fun a b : Similarity => GoFloat.lt a.cosine b.cosine)
    (blogs.map (fun i => Similarity.mk i (queryScore s terms i)))
  have h2 := h1.map Similarity.blog
  have h3 : (Similarity.blog ∘ fun i => Similarity.mk i (queryScore s terms i)) = id := by
    funext i
    rfl
  simpa [List.map_map, h3] using h2

/-- C9: the list returned by `Query` is a permutation of the distinct
candidate ids produced by the retrieval step — ranking appends exactly one
scored record per candidate (whatever its score, NaN included) and returns
exactly those ids, so its length equals the number of candidates. -/
theorem query_perm_of_retrieve (tok : String → List Token) (s : DBState) (keyword : String) :
    (Query tok s keyword).Perm
      (retrieve s.termTable (queryTerms (tok keyword))) ∧
    (Query tok s keyword).length =
      (retrieve s.termTable (queryTerms (tok keyword))).length := by
  have h : (Query tok s keyword).Perm (retrieve s.termTable (queryTerms (tok keyword))) :=
    rank_perm s (queryTerms (tok keyword)) (retrieve s.termTable (queryTerms (tok keyword)))
  exact ⟨h, h.length_eq⟩

/-! ## Lemmas about `count_occurences` -/

/-- One `count_occurences` step either keeps the key list (space/markup skip
or increment of a known token) or appends the new indexable token. -/
lemma addOccurrence_keys (freq : List (Token × Nat)) (t : Token) :
    (addOccurrence freq t).map Prod.fst = freq.map Prod.fst ∨
    ((addOccurrence freq t).map Prod.fst = freq.map Prod.fst ++ [t] ∧
      t.isSpace = false ∧ t.isHTML = false) := by
  unfold addOccurrence
  by_cases hskip : t.isSpace || t.isHTML
  · rw [if_pos hskip]
    exact Or.inl rfl
  · rw [if_neg hskip]
    obtain ⟨hs, hh⟩ : t.isSpace = false ∧ t.isHTML = false := by
      revert hskip
      cases h1 : t.isSpace <;> cases h2 : t.isHTML <;> simp
    cases hfind : freq.find? (fun p => p.1 == t) with
    | some q =>
      refine Or.inl ?_
      rw [List.map_map]
      apply List.map_congr_left
      intro p _
      by_cases hp : p.1 = t <;> simp [hp]
    | none =>
      exact Or.inr ⟨by simp, hs, hh⟩

lemma keys_foldl_addOccurrence (toks : List Token) (acc : List (Token × Nat)) :
    ∀ t ∈ (toks.foldl addOccurrence acc).map Prod.fst,
      t ∈ acc.map Prod.fst ∨ (t ∈ toks ∧ t.isSpace = false ∧ t.isHTML = false) := by
  induction toks generalizing acc with
  | nil => intro t ht; exact Or.inl ht
  | cons y ys ih =>
    intro t ht
    simp only [List.foldl_cons] at ht
    rcases ih (addOccurrence acc y) t ht with h | h
    · rcases addOccurrence_keys acc y with hk | ⟨hk, hs, hh⟩
      · rw [hk] at h
        exact Or.inl h
      · rw [hk] at h
        rcases List.mem_append.mp h with h | h
        · exact Or.inl h
        · exact Or.inr ⟨List.mem_singleton.mp h ▸ List.mem_cons_self y ys, by
            rw [List.mem_singleton.mp h]; exact hs, by
            rw [List.mem_singleton.mp h]; exact hh⟩
    · exact Or.inr ⟨List.mem_cons_of_mem _ h.1, h.2⟩

/-- Every key counted by `count_occurences` is an indexable (non-whitespace,
non-markup) token of the content. -/
lemma count_occurences_keys (toks : List Token) :
    ∀ p ∈ count_occurences toks,
      p.1 ∈ toks ∧ p.1.isSpace = false ∧ p.1.isHTML = false := by
  intro p hp
  have h := keys_foldl_addOccurrence toks [] p.1 (List.mem_map_of_mem Prod.fst hp)
  simpa using h

lemma hasKey_addOccurrence (freq : List (Token × Nat)) (t u : Token)
    (h : ∃ n, (u, n) ∈ freq) : ∃ n, (u, n) ∈ addOccurrence freq t := by
  obtain ⟨n, hn⟩ := h
  unfold addOccurrence
  by_cases hskip : t.isSpace || t.isHTML
  · rw [if_pos hskip]
    exact ⟨n, hn⟩
  · rw [if_neg hskip]
    cases hfind : freq.find? (fun p => p.1 == t) with
    | some q =>
      by_cases hu : u == t
      · exact ⟨n + 1, List.mem_map.mpr ⟨(u, n), hn, by simp [hu]⟩⟩
      · exact ⟨n, List.mem_map.mpr ⟨(u, n), hn, by simp [hu]⟩⟩
    | none =>
      exact ⟨n, List.mem_append_left _ hn⟩

lemma hasKey_foldl_addOccurrence (toks : List Token) (acc : List (Token × Nat)) (u : Token)
    (h : ∃ n, (u, n) ∈ acc) : ∃ n, (u, n) ∈ toks.foldl addOccurrence acc := by
  induction toks generalizing acc with
  | nil => exact h
  | cons y ys ih =>
    simp only [List.foldl_cons]
    exact ih (addOccurrence acc y) (hasKey_addOccurrence acc y u h)

/-- Every indexable token of the content gets a key in `count_occurences`. -/
lemma count_occurences_hasKey (toks : List Token) (u : Token)
    (hu : u ∈ toks) (hs : u.isSpace = false) (hh : u.isHTML = false) :
    ∃ n, (u, n) ∈ count_occurences toks := by
  unfold count_occurences
  suffices h : ∀ acc : List (Token × Nat), u ∈ toks → ∃ n, (u, n) ∈ toks.foldl addOccurrence acc by
    exact h [] hu
  clear hu
  induction toks with
  | nil => intro acc hu; cases hu
  | cons y ys ih =>
    intro acc hu
    simp only [List.foldl_cons]
    rcases List.mem_cons.mp hu with rfl | hu
    · apply hasKey_foldl_addOccurrence
      unfold addOccurrence
      rw [if_neg (by simp [hs, hh])]
      cases hfind : acc.find? (fun p => p.1 == u) with
      | some q =>
        have hq := List.find?_some hfind
        have hqmem := List.mem_of_find?_eq_some hfind
        have hq1 : q.1 = u := by simpa using hq
        exact ⟨q.2 + 1, List.mem_map.mpr ⟨q, hqmem, by simp [hq1]⟩⟩
      | none =>
        exact ⟨1, List.mem_append_right _ (List.mem_singleton.mpr rfl)⟩
    · exact ih (addOccurrence acc y) hu

/-! ## Lemmas about `newIndexes` -/

lemma mem_foldl_newIndexesStep (wt : List WeightDoc) (blogID : String) (norm : ℝ)
    (freq : List (Token × Nat)) (acc : List Inverted_Index × Term_Weight)
    (e : Inverted_Index) (he : e ∈ acc.1) :
    e ∈ (freq.foldl (newIndexesStep wt blogID norm) acc).1 := by
  induction freq generalizing acc with
  | nil => exact he
  | cons q qs ih =>
    simp only [List.foldl_cons]
    exact ih _ (List.mem_append_left _ he)

/-- `newIndexes` inserts, for every counted token, an entry carrying that
token's text and the indexed blog's id. -/
lemma newIndexes_mem (s : DBState) (freq : List (Token × Nat)) (blogID : String) (norm : ℝ) :
    ∀ p ∈ freq, ∃ e ∈ (newIndexes s freq blogID norm).termTable,
      e.term = p.1.text ∧ e.blog_id = blogID := by
  unfold newIndexes
  suffices h : ∀ acc : List Inverted_Index × Term_Weight, ∀ p ∈ freq,
      ∃ e ∈ (freq.foldl (newIndexesStep s.weightTable blogID norm) acc).1,
        e.term = p.1.text ∧ e.blog_id = blogID by
    intro p hp
    exact h (s.termTable, emptyTW) p hp
  induction freq with
  | nil => intro acc p hp; cases hp
  | cons q qs ih =>
    intro acc p hp
    rcases List.mem_cons.mp hp with rfl | hp
    · refine ⟨⟨p.1.text, blogID, term_freq (p.2 : ℤ) norm,
        tf_idf (term_freq (p.2 : ℤ) norm)
          (((findRec s.weightTable p.1.text).getD acc.2).idf)⟩,
        ?_, rfl, rfl⟩
      simp only [List.foldl_cons]
      apply mem_foldl_newIndexesStep
      exact List.mem_append_right _ (List.mem_singleton.mpr rfl)
    · simp only [List.foldl_cons]
      exact ih _ p hp

/-- The collections untouched by each operation. -/
lemma updateIDF_termTable (s : DBState) (freq : List (Token × Nat)) :
    (updateIDF s freq).termTable = s.termTable := rfl

lemma newIndexes_weightTable (s : DBState) (freq : List (Token × Nat))
    (blogID : String) (norm : ℝ) :
    (newIndexes s freq blogID norm).weightTable = s.weightTable := rfl

lemma AddIndexes_blogTable (tok : String → List Token) (blog : Blog) (s : DBState) :
    (AddIndexes tok blog s).blogTable = s.blogTable := rfl

/-- `AddIndexes` changes the weight collection exactly as `updateIDF` does. -/
lemma AddIndexes_weightTable (tok : String → List Token) (blog : Blog) (s : DBState) :
    (AddIndexes tok blog s).weightTable =
      (updateIDF { s with tokStream := ([] : List Token) }
        (count_occurences (tok (blobOf blog)))).weightTable := rfl

/-- C5: after indexing a document that carries an indexable token with text
`u` — in particular one unique to it, i.e. with no pre-existing index entry —
every query whose text tokenizes to a non-whitespace token with text `u`
returns that document. -/
theorem addIndexes_then_query_returns_document
    (tok : String → List Token) (s0 : DBState) (D : Blog) (u : String) (text : String)
    (hd : ∃ t ∈ tok (blobOf D), t.isSpace = false ∧ t.isHTML = false ∧ t.text = u)
    (_huniq : ∀ e ∈ s0.termTable, e.term ≠ u)
    (hq : ∃ t ∈ tok text, t.isSpace = false ∧ t.text = u) :
    D.blog_id ∈ Query tok (AddIndexes tok D s0) text := by
  obtain ⟨td, htd, hds, hdh, hdu⟩ := hd
  obtain ⟨tq, htq, hqs, hqu⟩ := hq
  -- the query collects u as a term
  have hterm : u ∈ queryTerms (tok text) :=
    (mem_queryTerms_iff (tok text) u).mpr ⟨tq, htq, hqs, hqu⟩
  -- indexing D created an entry (u, D.blog_id)
  obtain ⟨n, hkey⟩ := count_occurences_hasKey (tok (blobOf D)) td htd hds hdh
  have hentry := newIndexes_mem
    (updateIDF { s0 with tokStream := [] } (count_occurences (tok (blobOf D))))
    (count_occurences (tok (blobOf D))) D.blog_id
    (euclidean_norm (count_occurences (tok (blobOf D)))) (td, n) hkey
  obtain ⟨e, he, heterm, heblog⟩ := hentry
  have hmem : e ∈ (AddIndexes tok D s0).termTable := he
  -- D is retrieved
  have hret : D.blog_id ∈ retrieve (AddIndexes tok D s0).termTable (queryTerms (tok text)) :=
    (mem_retrieve_iff _ _ _).mpr ⟨e, hmem, by rw [heterm, hdu]; exact hterm, heblog⟩
  -- ranking permutes the candidates
  have hperm := rank_perm (AddIndexes tok D s0) (queryTerms (tok text))
    (retrieve (AddIndexes tok D s0).termTable (queryTerms (tok text)))
  exact hperm.mem_iff.mpr hret

/-! ## Zero-magnitude vectors and the cosine division (C4) -/

lemma list_sum_eq_zero_of_nonneg (l : List ℝ) (h0 : ∀ x ∈ l, 0 ≤ x) (h : l.sum = 0) :
    ∀ x ∈ l, x = 0 := by
  induction l with
  | nil => intro x hx; cases hx
  | cons y ys ih =>
    have hy : 0 ≤ y := h0 y (List.mem_cons_self _ _)
    have hys : 0 ≤ ys.sum := List.sum_nonneg (fun x hx => h0 x (List.mem_cons_of_mem _ hx))
    rw [List.sum_cons] at h
    have hy0 : y = 0 := by linarith
    have hsum0 : ys.sum = 0 := by linarith
    intro x hx
    rcases List.mem_cons.mp hx with rfl | hx
    · exact hy0
    · exact ih (fun z hz => h0 z (List.mem_cons_of_mem _ hz)) hsum0 x hx

/-- A vector of magnitude zero has only zero values. -/
lemma magnitude_eq_zero_values (v : List (String × ℝ)) (h : magnitude v = 0) :
    ∀ p ∈ v, p.2 = 0 := by
  unfold magnitude at h
  have hnn : ∀ x ∈ v.map (fun p => p.2 * p.2), 0 ≤ x := by
    intro x hx
    obtain ⟨p, _, rfl⟩ := List.mem_map.mp hx
    exact mul_self_nonneg _
  have hsum : (v.map (fun p => p.2 * p.2)).sum = 0 :=
    le_antisymm (Real.sqrt_eq_zero'.mp h) (List.sum_nonneg hnn)
  intro p hp
  have := list_sum_eq_zero_of_nonneg _ hnn hsum (p.2 * p.2)
    (List.mem_map.mpr ⟨p, hp, rfl⟩)
  exact mul_self_eq_zero.mp this

lemma lookupA_eq_zero_of_magnitude_zero (q : List (String × ℝ)) (h : magnitude q = 0)
    (k : String) : lookupA q k = 0 := by
  unfold lookupA
  cases hfind : q.find? (fun p => p.1 == k) with
  | none => rfl
  | some p =>
    have hp := List.mem_of_find?_eq_some hfind
    simpa using magnitude_eq_zero_values q h p hp

lemma crossProduct_eq_zero (query blog : List (String × ℝ))
    (h : magnitude query = 0 ∨ magnitude blog = 0) :
    crossProduct query blog = 0 := by
  unfold crossProduct
  apply List.sum_eq_zero
  intro x hx
  obtain ⟨p, hp, rfl⟩ := List.mem_map.mp hx
  rcases h with h | h
  · rw [lookupA_eq_zero_of_magnitude_zero query h p.1, mul_zero]
  · rw [magnitude_eq_zero_values blog h p hp, zero_mul]

/-- C4 (amended): a zero magnitude on either side makes the cross product
zero as well, so the division in `cosineSimilarity` is `0/0`, whose IEEE-754
value is NaN — not the number 0; no error is surfaced (the function is
total and the candidate is still scored and returned). -/
theorem cosineSimilarity_zero_magnitude (query blog : List (String × ℝ))
    (h : magnitude query = 0 ∨ magnitude blog = 0) :
    cosineSimilarity query blog = GoFloat.nan := by
  unfold cosineSimilarity goDiv
  have hden : magnitude query * magnitude blog = 0 := by
    rcases h with h | h
    · rw [h, zero_mul]
    · rw [h, mul_zero]
  rw [if_pos hden, if_pos (crossProduct_eq_zero query blog h)]

/-- Witness for `cosineSimilarity_zero_magnitude`: the empty candidate
vector has magnitude zero, and the score against the query vector
`{cat ↦ 3}` is NaN. -/
theorem cosineSimilarity_zero_magnitude_witness :
    (magnitude [] = 0 ∨ magnitude [("cat", (3 : ℝ))] = 0) ∧
    cosineSimilarity [("cat", (3 : ℝ))] [] = GoFloat.nan := by
  have h : magnitude [] = 0 := by
    unfold magnitude
    simp
  exact ⟨Or.inl h, cosineSimilarity_zero_magnitude _ _ (Or.inr h)⟩

lemma magnitude_nil : magnitude [] = 0 := by
  unfold magnitude
  simp

/-- Every score `rank` computes is NaN: the malformed per-blog query makes
every candidate vector empty, so both the cross product and the candidate
magnitude are zero and the division is `0/0`. -/
lemma queryScore_eq_nan (s : DBState) (terms : List String) (i : String) :
    queryScore s terms i = GoFloat.nan := by
  unfold queryScore
  have hvec : arrangeTerms (findBlogTerms s.termTable terms i) = [] := rfl
  rw [hvec]
  unfold cosineSimilarity goDiv
  rw [if_pos (by rw [magnitude_nil, mul_zero]),
    if_pos (crossProduct_eq_zero _ _ (Or.inr magnitude_nil))]

/-- C4 (counterexample): with both magnitudes zero the score `rank` uses is
NaN, not the number 0 — and the NaN-scored candidate is still returned, not
an error. -/
theorem cosine_zero_magnitude_is_nan_not_zero :
    queryScore stateC4 ["cat"] "D1" = GoFloat.nan ∧
    GoFloat.nan ≠ GoFloat.num 0 ∧
    Query tokC4 stateC4 "cat" = ["D1"] := by
  have hq : queryRank stateC4.weightTable ["cat"] = [("cat", (0 : ℝ))] := rfl
  have hvec : arrangeTerms (findBlogTerms stateC4.termTable ["cat"] "D1") = [] := rfl
  have hscore : queryScore stateC4 ["cat"] "D1" = GoFloat.nan := by
    unfold queryScore
    rw [hq, hvec]
    unfold cosineSimilarity goDiv
    rw [if_pos (by rw [magnitude_nil, mul_zero]),
      if_pos (crossProduct_eq_zero _ _ (Or.inr magnitude_nil))]
  refine ⟨hscore, by simp, ?_⟩
  have hterms : queryTerms (tokC4 "cat") = ["cat"] := rfl
  have hret : retrieve stateC4.termTable ["cat"] = ["D1"] := rfl
  show rank stateC4 (queryTerms (tokC4 "cat"))
      (retrieve stateC4.termTable (queryTerms (tokC4 "cat"))) = ["D1"]
  rw [hterms, hret]
  unfold rank
  simp [List.insertionSort]

/-! ## The ranking order (C1) -/

/-- C1: `Query` produces NO descending order — the malformed `$in` query
empties every candidate vector and the float64-decode failure zeroes every
query weight, so every returned document's score is NaN, and for the two
returned documents (in whichever order the sort emits them) the claimed
`score(first) >= score(second)` is false, NaN being incomparable.  (Even for
numeric scores, `Similarities.Less` uses `<`, i.e. ascending, against the
source's own 'descending' comment.) -/
theorem query_returns_no_descending_order :
    (Query tokC1 stateC1 "cat dog").Perm ["D1", "D2"] ∧
    queryScore stateC1 ["cat", "dog"] "D1" = GoFloat.nan ∧
    queryScore stateC1 ["cat", "dog"] "D2" = GoFloat.nan ∧
    ¬ GoFloat.le (queryScore stateC1 ["cat", "dog"] "D2")
      (queryScore stateC1 ["cat", "dog"] "D1") ∧
    ¬ GoFloat.le (queryScore stateC1 ["cat", "dog"] "D1")
      (queryScore stateC1 ["cat", "dog"] "D2") := by
  refine ⟨?_, queryScore_eq_nan _ _ _, queryScore_eq_nan _ _ _, ?_, ?_⟩
  · have hterms : queryTerms (tokC1 "cat dog") = ["cat", "dog"] := rfl
    have hret : retrieve stateC1.termTable ["cat", "dog"] = ["D1", "D2"] := rfl
    have hperm := rank_perm stateC1 (queryTerms (tokC1 "cat dog"))
      (retrieve stateC1.termTable (queryTerms (tokC1 "cat dog")))
    rw [hterms, hret] at hperm
    show (rank stateC1 (queryTerms (tokC1 "cat dog"))
      (retrieve stateC1.termTable (queryTerms (tokC1 "cat dog")))).Perm ["D1", "D2"]
    rw [hterms, hret]
    exact hperm
  · rw [queryScore_eq_nan, queryScore_eq_nan]
    exact fun h => h
  · rw [queryScore_eq_nan, queryScore_eq_nan]
    exact fun h => h

/-! ## The statistics update (C2) and query vectorization (C3) -/

/-- C2: processing a document whose distinct terms are `cat` (which has a
record) followed by `dog` (which has none), `updateIDF` REPLACES `cat`'s
record with a termless `{set: …}` document (the operator-free update) — so
`cat` is not incremented in place and later term lookups miss it — and
creates NO record for `dog`: the `weightRow` fetched for `cat` leaks into
`dog`'s iteration, routing it into the update branch, whose selector matches
nothing. -/
theorem updateIDF_destroys_present_and_skips_absent_term :
    (updateIDF stateC2 [(catTok, 1), (dogTok, 1)]).weightTable =
      [WeightDoc.replaced 2 (inverse_document_freq 2 3)] ∧
    findRec (updateIDF stateC2 [(catTok, 1), (dogTok, 1)]).weightTable "cat" = none ∧
    findRec (updateIDF stateC2 [(catTok, 1), (dogTok, 1)]).weightTable "dog" = none := by
  exact ⟨rfl, rfl, rfl⟩

lemma setA_values_zero (m : List (String × ℝ)) (k : String)
    (h : ∀ p ∈ m, p.2 = 0) : ∀ p ∈ setA m k 0, p.2 = 0 := by
  unfold setA
  cases hfind : m.find? (fun p => p.1 == k) with
  | some q =>
    intro p hp
    obtain ⟨q', hq', heq⟩ := List.mem_map.mp hp
    by_cases hq : q'.1 == k
    · rw [if_pos hq] at heq
      rw [← heq]
    · rw [if_neg hq] at heq
      rw [← heq]
      exact h q' hq'
  | none =>
    intro p hp
    rcases List.mem_append.mp hp with hp | hp
    · exact h p hp
    · rw [List.mem_singleton.mp hp]

/-- Every value `queryRank` stores is 0: the bare-float64 decode failure
means the carried `idf` variable is never assigned. -/
lemma queryRank_values_zero (wt : List WeightDoc) (terms : List String) :
    ∀ p ∈ queryRank wt terms, p.2 = 0 := by
  unfold queryRank
  suffices h : ∀ m : List (String × ℝ), (∀ p ∈ m, p.2 = 0) →
      ∀ p ∈ (terms.foldl
        (fun (acc : List (String × ℝ) × ℝ) t =>
          let _row := findRec wt t
          (setA acc.1 t acc.2, acc.2)) (m, (0 : ℝ))).1, p.2 = 0 by
    exact h [] (by intro p hp; cases hp)
  induction terms with
  | nil => intro m hm; exact hm
  | cons t ts ih =>
    intro m hm
    simp only [List.foldl_cons]
    exact ih (setA m t 0) (setA_values_zero m t hm)

lemma lookupA_queryRank_zero (wt : List WeightDoc) (terms : List String) (t : String) :
    lookupA (queryRank wt terms) t = 0 := by
  unfold lookupA
  cases hfind : (queryRank wt terms).find? (fun p => p.1 == t) with
  | none => rfl
  | some p =>
    have hp := List.mem_of_find?_eq_some hfind
    simpa using queryRank_values_zero wt terms p hp

/-- C3: a query term with no `TermStatistic` record contributes idf = 0 to
the query vector, for every query and every position of the absent term (the
bare-float64 decode failure leaves the reused `idf` variable at its initial
`0.0`, so in fact every term contributes 0); and such a term affects no
candidate's score — dropping it from the term list leaves every candidate's
score unchanged. -/
theorem query_term_without_statistic_contributes_zero
    (s : DBState) (terms : List String) (t : String) (i : String)
    (_habs : findRec s.weightTable t = none) :
    lookupA (queryRank s.weightTable terms) t = 0 ∧
    queryScore s terms i = queryScore s (terms.filter (fun u => u != t)) i := by
  refine ⟨lookupA_queryRank_zero _ _ _, ?_⟩
  rw [queryScore_eq_nan, queryScore_eq_nan]

/-- Witness for `query_term_without_statistic_contributes_zero`: in a store
that knows only `cat`, the absent term `dog` of the query `[cat, dog]`
contributes 0 and leaves candidate `D1`'s score unchanged. -/
theorem query_term_without_statistic_contributes_zero_witness :
    findRec stateC3.weightTable "dog" = none ∧
    lookupA (queryRank stateC3.weightTable ["cat", "dog"]) "dog" = 0 ∧
    queryScore stateC3 ["cat", "dog"] "D1" =
      queryScore stateC3 (["cat", "dog"].filter (fun u => u != "dog")) "D1" := by
  have habs : findRec stateC3.weightTable "dog" = none := rfl
  have h := query_term_without_statistic_contributes_zero stateC3 ["cat", "dog"]
    "dog" "D1" habs
  exact ⟨habs, h.1, h.2⟩

/-! ## Index removal (C8) -/

/-- C8: after `AddIndexes(blogD)` the tokenizer stream is exhausted, so
`RemoveIndexes(blogD)` — which iterates the leftover stream instead of
re-tokenizing the document — removes the blog's index entries but leaves the
`cat` term statistic (document frequency 1, which the claim says must be
deleted) untouched. -/
theorem removeIndexes_leaves_term_statistics :
    (RemoveIndexes blogD (AddIndexes tokC8 blogD stateC8)).termTable = [] ∧
    (RemoveIndexes blogD (AddIndexes tokC8 blogD stateC8)).weightTable =
      [WeightDoc.record ⟨"cat", 1, inverse_document_freq 1 1⟩] ∧
    (AddIndexes tokC8 blogD stateC8).tokStream = [] := by
  exact ⟨rfl, rfl, rfl⟩

/-! ## Lemmas about `findRec`, `updateTW` and the `updateIDF` fold (C6, C7) -/

lemma findRec_cons_rec (w : Term_Weight) (ds : List WeightDoc) (t : String) :
    findRec (WeightDoc.record w :: ds) t =
      if w.term = t then some w else findRec ds t := rfl

lemma findRec_cons_replaced (n : Int) (x : ℝ) (ds : List WeightDoc) (t : String) :
    findRec (WeightDoc.replaced n x :: ds) t = findRec ds t := rfl

lemma updateTW_cons_rec (w : Term_Weight) (ds : List WeightDoc) (t : String)
    (c : Int) (v : ℝ) :
    updateTW (WeightDoc.record w :: ds) t c v =
      if w.term = t then WeightDoc.replaced c v :: ds
      else WeightDoc.record w :: updateTW ds t c v := rfl

lemma updateTW_cons_replaced (n : Int) (x : ℝ) (ds : List WeightDoc) (t : String)
    (c : Int) (v : ℝ) :
    updateTW (WeightDoc.replaced n x :: ds) t c v =
      WeightDoc.replaced n x :: updateTW ds t c v := rfl

/-- A successful term lookup returns a record carrying that term. -/
lemma findRec_some (wt : List WeightDoc) (t : String) (w : Term_Weight)
    (h : findRec wt t = some w) : w.term = t := by
  induction wt with
  | nil => cases h
  | cons d ds ih =>
    cases d with
    | record w' =>
      rw [findRec_cons_rec] at h
      by_cases hw : w'.term = t
      · rw [if_pos hw] at h
        exact (Option.some.inj h) ▸ hw
      · rw [if_neg hw] at h
        exact ih h
    | replaced n x =>
      rw [findRec_cons_replaced] at h
      exact ih h

lemma findRec_append_of_none (l1 l2 : List WeightDoc) (t : String)
    (h : findRec l1 t = none) : findRec (l1 ++ l2) t = findRec l2 t := by
  induction l1 with
  | nil => rfl
  | cons d ds ih =>
    cases d with
    | record w =>
      rw [findRec_cons_rec] at h
      by_cases hw : w.term = t
      · rw [if_pos hw] at h
        cases h
      · rw [if_neg hw] at h
        rw [List.cons_append, findRec_cons_rec, if_neg hw]
        exact ih h
    | replaced n x =>
      rw [findRec_cons_replaced] at h
      rw [List.cons_append, findRec_cons_replaced]
      exact ih h

lemma findRec_append_of_some (l1 l2 : List WeightDoc) (t : String) (r : Term_Weight)
    (h : findRec l1 t = some r) : findRec (l1 ++ l2) t = some r := by
  induction l1 with
  | nil => cases h
  | cons d ds ih =>
    cases d with
    | record w =>
      rw [findRec_cons_rec] at h
      by_cases hw : w.term = t
      · rw [if_pos hw] at h
        rw [List.cons_append, findRec_cons_rec, if_pos hw]
        exact h
      · rw [if_neg hw] at h
        rw [List.cons_append, findRec_cons_rec, if_neg hw]
        exact ih h
    | replaced n x =>
      rw [findRec_cons_replaced] at h
      rw [List.cons_append, findRec_cons_replaced]
      exact ih h

/-- Replacing term `t`'s document does not change what a lookup of a
different term sees. -/
lemma findRec_updateTW_ne (wt : List WeightDoc) (t u : String) (c : Int) (v : ℝ)
    (h : u ≠ t) :
    findRec (updateTW wt t c v) u = findRec wt u := by
  induction wt with
  | nil => rfl
  | cons d ds ih =>
    cases d with
    | record w =>
      rw [updateTW_cons_rec]
      by_cases hw : w.term = t
      · rw [if_pos hw, findRec_cons_replaced, findRec_cons_rec,
          if_neg (by rw [hw]; exact fun hc => h hc.symm)]
      · rw [if_neg hw, findRec_cons_rec, findRec_cons_rec]
        by_cases hwu : w.term = u
        · rw [if_pos hwu, if_pos hwu]
        · rw [if_neg hwu, if_neg hwu, ih]
    | replaced n x =>
      rw [updateTW_cons_replaced, findRec_cons_replaced, findRec_cons_replaced, ih]

lemma recCount_cons_pos (d : WeightDoc) (ds : List WeightDoc) (t : String)
    (h : isRecOf d t = true) : recCount (d :: ds) t = recCount ds t + 1 := by
  unfold recCount
  rw [List.filter_cons, if_pos h, List.length_cons]

lemma recCount_cons_neg (d : WeightDoc) (ds : List WeightDoc) (t : String)
    (h : isRecOf d t = false) : recCount (d :: ds) t = recCount ds t := by
  unfold recCount
  rw [List.filter_cons, if_neg (show ¬(isRecOf d t = true) by simp [h])]

/-- A collection with no record for `t` yields a failed lookup. -/
lemma findRec_none_of_recCount_zero (wt : List WeightDoc) (t : String)
    (h : recCount wt t = 0) : findRec wt t = none := by
  induction wt with
  | nil => rfl
  | cons d ds ih =>
    cases d with
    | record w =>
      by_cases hw : w.term = t
      · rw [recCount_cons_pos _ _ _ (by simp [isRecOf, hw])] at h
        exact absurd h (by omega)
      · rw [recCount_cons_neg _ _ _ (by simp [isRecOf, hw])] at h
        rw [findRec_cons_rec, if_neg hw]
        exact ih h
    | replaced n x =>
      rw [recCount_cons_neg (WeightDoc.replaced n x) ds t rfl] at h
      rw [findRec_cons_replaced]
      exact ih h

lemma recCount_updateTW_ne (wt : List WeightDoc) (t u : String) (c : Int) (v : ℝ)
    (h : u ≠ t) :
    recCount (updateTW wt t c v) u = recCount wt u := by
  induction wt with
  | nil => rfl
  | cons d ds ih =>
    cases d with
    | record w =>
      rw [updateTW_cons_rec]
      by_cases hw : w.term = t
      · have hwu : isRecOf (WeightDoc.record w) u = false := by
          simp only [isRecOf, beq_eq_false_iff_ne, ne_eq]
          rw [hw]
          exact fun hc => h hc.symm
        rw [if_pos hw, recCount_cons_neg (WeightDoc.replaced c v) ds u rfl,
          recCount_cons_neg (WeightDoc.record w) ds u hwu]
      · rw [if_neg hw]
        by_cases hwu : w.term = u
        · rw [recCount_cons_pos (WeightDoc.record w) _ u (by simp [isRecOf, hwu]),
            recCount_cons_pos (WeightDoc.record w) ds u (by simp [isRecOf, hwu]), ih]
        · rw [recCount_cons_neg (WeightDoc.record w) _ u (by simp [isRecOf, hwu]),
            recCount_cons_neg (WeightDoc.record w) ds u (by simp [isRecOf, hwu]), ih]
    | replaced n x =>
      rw [updateTW_cons_replaced,
        recCount_cons_neg (WeightDoc.replaced n x) _ u rfl,
        recCount_cons_neg (WeightDoc.replaced n x) ds u rfl, ih]

/-- Replacing the only record of term `t` leaves no record for `t`: the
update destroys the term field, so the lookup misses from then on. -/
lemma findRec_updateTW_destroy (wt : List WeightDoc) (t : String) (c : Int) (v : ℝ)
    (r : Term_Weight) (hfind : findRec wt t = some r) (hcount : recCount wt t ≤ 1) :
    findRec (updateTW wt t c v) t = none := by
  induction wt with
  | nil => cases hfind
  | cons d ds ih =>
    cases d with
    | record w =>
      rw [findRec_cons_rec] at hfind
      by_cases hw : w.term = t
      · rw [updateTW_cons_rec, if_pos hw, findRec_cons_replaced]
        apply findRec_none_of_recCount_zero
        rw [recCount_cons_pos _ _ _ (by simp [isRecOf, hw])] at hcount
        omega
      · rw [if_neg hw] at hfind
        rw [updateTW_cons_rec, if_neg hw, findRec_cons_rec, if_neg hw]
        apply ih hfind
        rw [recCount_cons_neg _ _ _ (by simp [isRecOf, hw])] at hcount
        exact hcount
    | replaced n x =>
      rw [findRec_cons_replaced] at hfind
      rw [updateTW_cons_replaced, findRec_cons_replaced]
      apply ih hfind
      rw [recCount_cons_neg (WeightDoc.replaced n x) ds t rfl] at hcount
      exact hcount

/-- An `updateIDF` iteration for a token of a different text neither changes
nor shadows what a lookup of `T` sees. -/
lemma findRec_updateIDFStep_ne (total : ℤ) (acc : List WeightDoc × Term_Weight)
    (key : Token) (T : String) (hkey : key.text ≠ T) :
    findRec ((updateIDFStep total acc key).1) T = findRec acc.1 T := by
  simp only [updateIDFStep]
  by_cases hrow : ((findRec acc.1 key.text).getD acc.2).term = ""
  · rw [if_pos hrow]
    cases hfind : findRec acc.1 T with
    | some r => exact findRec_append_of_some _ _ _ r hfind
    | none =>
      rw [findRec_append_of_none _ _ _ hfind, findRec_cons_rec, if_neg hkey]
      rfl
  · rw [if_neg hrow]
    exact findRec_updateTW_ne acc.1 key.text T _ _ (Ne.symm hkey)

lemma recCount_updateIDFStep_ne (total : ℤ) (acc : List WeightDoc × Term_Weight)
    (key : Token) (T : String) (hkey : key.text ≠ T) :
    recCount ((updateIDFStep total acc key).1) T = recCount acc.1 T := by
  simp only [updateIDFStep]
  by_cases hrow : ((findRec acc.1 key.text).getD acc.2).term = ""
  · rw [if_pos hrow]
    unfold recCount
    rw [List.filter_append, List.length_append]
    have hsing : List.filter (fun d => isRecOf d T)
        [WeightDoc.record ⟨key.text, 1, inverse_document_freq 1 total⟩] = [] := by
      rw [List.filter_cons_of_neg (by simp [isRecOf, hkey]), List.filter_nil]
    rw [hsing]
    simp
  · rw [if_neg hrow]
    exact recCount_updateTW_ne acc.1 key.text T _ _ (Ne.symm hkey)

lemma findRec_foldl_updateIDFStep_no_T (keys : List Token) (total : ℤ) (T : String) :
    ∀ acc : List WeightDoc × Term_Weight,
      (∀ k ∈ keys, k.text ≠ T) →
      findRec ((keys.foldl (updateIDFStep total) acc).1) T = findRec acc.1 T := by
  induction keys with
  | nil => intro acc _; rfl
  | cons k ks ih =>
    intro acc h
    simp only [List.foldl_cons]
    rw [ih _ (fun k' hk' => h k' (List.mem_cons_of_mem _ hk')),
      findRec_updateIDFStep_ne total acc k T (h k (List.mem_cons_self _ _))]

/-- Through a whole `updateIDF` pass in which exactly one counted token has
text `T`, the (unique) `T` record is replaced by a termless document:
afterwards no lookup of `T` succeeds. -/
lemma findRec_foldl_updateIDFStep_destroy (keys : List Token) (total : ℤ) (T : String)
    (t0 : Token) (hT : T ≠ "") :
    ∀ acc : List WeightDoc × Term_Weight, ∀ r : Term_Weight,
      keys.filter (fun k => k.text == T) = [t0] →
      findRec acc.1 T = some r →
      recCount acc.1 T ≤ 1 →
      findRec ((keys.foldl (updateIDFStep total) acc).1) T = none := by
  induction keys with
  | nil =>
    intro acc r hfilter _ _
    cases hfilter
  | cons k ks ih =>
    intro acc r hfilter hfind hcount
    simp only [List.foldl_cons]
    by_cases hk : k.text = T
    · rw [List.filter_cons_of_pos (by simpa using hk)] at hfilter
      have hks : ks.filter (fun kk => kk.text == T) = [] := by
        injection hfilter
      have hnone : ∀ k' ∈ ks, k'.text ≠ T := by
        intro k' hk' hc
        have hmem : k' ∈ ks.filter (fun kk => kk.text == T) :=
          List.mem_filter.mpr ⟨hk', by simpa using hc⟩
        rw [hks] at hmem
        cases hmem
      have hstep : findRec ((updateIDFStep total acc k).1) T = none := by
        have hr : r.term = T := findRec_some _ _ _ hfind
        simp only [updateIDFStep, hk, hfind, Option.getD_some]
        rw [if_neg (by rw [hr]; exact hT)]
        exact findRec_updateTW_destroy acc.1 T _ _ r hfind hcount
      rw [findRec_foldl_updateIDFStep_no_T ks total T _ hnone, hstep]
    · rw [List.filter_cons_of_neg (by simpa using hk)] at hfilter
      refine ih _ r hfilter
        ((findRec_updateIDFStep_ne total acc k T hk).trans hfind) ?_
      rw [recCount_updateIDFStep_ne total acc k T hk]
      exact hcount

/-- An `updateIDF` pass over a collection containing none of the counted
tokens (with pairwise-distinct texts) inserts one fresh record per token,
with count 1 and idf `ln(total/1)`: the carried `weightRow` stays at its
zero value along the pass, so every token takes the insert branch. -/
lemma foldl_updateIDFStep_insert_all (keys : List Token) (total : ℤ) :
    ∀ wt : List WeightDoc,
      (∀ k ∈ keys, findRec wt k.text = none) →
      ((keys.map Token.text).Nodup) →
      (keys.foldl (updateIDFStep total) (wt, emptyTW)).1 =
        wt ++ keys.map (fun k =>
          WeightDoc.record ⟨k.text, 1, inverse_document_freq 1 total⟩) := by
  induction keys with
  | nil => intro wt _ _; simp
  | cons k ks ih =>
    intro wt habs hdist
    simp only [List.foldl_cons]
    have hstep : updateIDFStep total (wt, emptyTW) k =
        (wt ++ [WeightDoc.record ⟨k.text, 1, inverse_document_freq 1 total⟩], emptyTW) := by
      simp only [updateIDFStep, habs k (List.mem_cons_self _ _), Option.getD_none]
      rw [if_pos (by rfl)]
    rw [hstep]
    have hnd : (∀ x ∈ ks, ¬x.text = k.text) ∧ (ks.map Token.text).Nodup := by
      simpa using hdist
    have habs2 : ∀ k' ∈ ks,
        findRec (wt ++ [WeightDoc.record ⟨k.text, 1, inverse_document_freq 1 total⟩])
          k'.text = none := by
      intro k' hk'
      rw [findRec_append_of_none _ _ _ (habs k' (List.mem_cons_of_mem _ hk')),
        findRec_cons_rec, if_neg (fun hc => hnd.1 k' hk' hc.symm)]
      rfl
    rw [ih _ habs2 hnd.2]
    simp

/-- Looking a text up among freshly inserted records finds the (unique up to
text) record with count 1. -/
lemma findRec_insert_map (keys : List Token) (total : ℤ) (u : String)
    (h : ∃ k ∈ keys, k.text = u) :
    findRec (keys.map (fun k =>
      WeightDoc.record ⟨k.text, 1, inverse_document_freq 1 total⟩)) u =
      some ⟨u, 1, inverse_document_freq 1 total⟩ := by
  induction keys with
  | nil =>
    obtain ⟨k, hk, _⟩ := h
    cases hk
  | cons k ks ih =>
    rw [List.map_cons, findRec_cons_rec]
    by_cases hk : k.text = u
    · rw [if_pos hk, hk]
    · rw [if_neg hk]
      obtain ⟨k', hk', hu⟩ := h
      rcases List.mem_cons.mp hk' with rfl | hk'
      · exact absurd hu hk
      · exact ih ⟨k', hk', hu⟩

lemma recCount_insert_map (keys : List Token) (total : ℤ) (u : String) :
    recCount (keys.map (fun k =>
      WeightDoc.record ⟨k.text, 1, inverse_document_freq 1 total⟩)) u =
    (keys.filter (fun k => k.text == u)).length := by
  induction keys with
  | nil => rfl
  | cons k ks ih =>
    rw [List.map_cons]
    by_cases hk : k.text = u
    · rw [recCount_cons_pos _ _ _ (by simp [isRecOf, hk]),
        List.filter_cons_of_pos (by simpa using hk), List.length_cons, ih]
    · rw [recCount_cons_neg _ _ _ (by simp [isRecOf, hk]),
        List.filter_cons_of_neg (by simpa using hk), ih]

lemma keys_filter_of_pair_filter (freq : List (Token × Nat)) (T : String) :
    (freq.map Prod.fst).filter (fun k => k.text == T) =
    (freq.filter (fun p => p.1.text == T)).map Prod.fst := by
  induction freq with
  | nil => rfl
  | cons p ps ih =>
    simp only [List.map_cons]
    by_cases hp : p.1.text = T
    · rw [List.filter_cons_of_pos (by simpa using hp),
        List.filter_cons_of_pos (by simpa using hp), List.map_cons, ih]
    · rw [List.filter_cons_of_neg (by simpa using hp),
        List.filter_cons_of_neg (by simpa using hp), ih]

lemma filter_eq_singleton_of_nodup (keys : List Token) (u : String) (k0 : Token) :
    (keys.map Token.text).Nodup → k0 ∈ keys → k0.text = u →
    keys.filter (fun k => k.text == u) = [k0] := by
  induction keys with
  | nil => intro _ hk0; cases hk0
  | cons k ks ih =>
    intro hdist hk0 hu
    have hnd : (∀ x ∈ ks, ¬x.text = k.text) ∧ (ks.map Token.text).Nodup := by
      simpa using hdist
    rcases List.mem_cons.mp hk0 with rfl | hk0
    · rw [List.filter_cons_of_pos (by simpa using hu)]
      have hks : ks.filter (fun kk => kk.text == u) = [] := by
        apply List.filter_eq_nil_iff.mpr
        intro k' hk'
        have hne : k'.text ≠ u := by
          intro hc
          exact hnd.1 k' hk' (by rw [hc, hu])
        simpa using hne
      rw [hks]
    · have hkne : k.text ≠ u := by
        intro hc
        exact hnd.1 k0 hk0 (by rw [hu, hc])
      rw [List.filter_cons_of_neg (by simpa using hkne)]
      exact ih hnd.2 hk0 hu

lemma updateIDF_weightTable_insert_all (s : DBState) (freq : List (Token × Nat))
    (habs : ∀ k ∈ freq.map Prod.fst, findRec s.weightTable k.text = none)
    (hdist : ((freq.map Prod.fst).map Token.text).Nodup) :
    (updateIDF s freq).weightTable =
      s.weightTable ++ (freq.map Prod.fst).map
        (fun k => WeightDoc.record ⟨k.text, 1,
          inverse_document_freq 1 (s.blogTable.length : ℤ)⟩) :=
  foldl_updateIDFStep_insert_all (freq.map Prod.fst) _ s.weightTable habs hdist

lemma updateIDF_findRec_destroy (s : DBState) (freq : List (Token × Nat)) (T : String)
    (t0 : Token) (r : Term_Weight) (hT : T ≠ "")
    (hfilter : (freq.map Prod.fst).filter (fun k => k.text == T) = [t0])
    (hfind : findRec s.weightTable T = some r)
    (hcount : recCount s.weightTable T ≤ 1) :
    findRec (updateIDF s freq).weightTable T = none :=
  findRec_foldl_updateIDFStep_destroy (freq.map Prod.fst) _ T t0 hT
    (s.weightTable, emptyTW) r hfilter hfind hcount

/-- One `AddIndexes` call on a document with exactly one counted token of
text `T`, against a collection holding exactly one record for `T`, leaves no
record for `T` at all: the operator-free update replaced it with a termless
document. -/
lemma AddIndexes_findRec_destroy (tok : String → List Token) (d : Blog) (s : DBState)
    (T : String) (t0 : Token) (r : Term_Weight) (hT : T ≠ "")
    (hfilter : ((count_occurences (tok (blobOf d))).map Prod.fst).filter
      (fun k => k.text == T) = [t0])
    (hfind : findRec s.weightTable T = some r)
    (hcount : recCount s.weightTable T ≤ 1) :
    findRec (AddIndexes tok d s).weightTable T = none := by
  rw [AddIndexes_weightTable]
  exact updateIDF_findRec_destroy { s with tokStream := ([] : List Token) } _ T t0 r hT
    hfilter hfind hcount

/-! ## The two statistics findings (C6, C7) -/

/-- C6: the stored statistics do NOT satisfy the claimed invariant — after
indexing two documents that each contain `cat` exactly once (fresh store,
two-blog corpus), `cat` has NO `TermStatistic` record at all, instead of a
record with `total_documents_containing_term = 2` and a recomputed idf: the
second document's operator-free update replaced the record with a termless
`{set: …}` document. -/
theorem term_statistic_lost_on_second_document :
    findRec (AddIndexes tokW blogD stateB).weightTable "cat" =
      some ⟨"cat", 1, inverse_document_freq 1 2⟩ ∧
    findRec (AddIndexes tokW blogD2 (AddIndexes tokW blogD stateB)).weightTable "cat" =
      none ∧
    (AddIndexes tokW blogD2 (AddIndexes tokW blogD stateB)).weightTable =
      [WeightDoc.replaced 2 (inverse_document_freq 2 2)] := by
  exact ⟨rfl, rfl, rfl⟩

/-- C7 (counterexample): re-indexing the same document does NOT increment
its term's document-frequency count — after the second `AddIndexes(blogD)`
there is no record for `cat` at all (count 1 before, none after), so no
record carries the claimed incremented count 2. -/
theorem addIndexes_second_pass_loses_count :
    findRec (AddIndexes tokW blogD stateB).weightTable "cat" =
      some ⟨"cat", 1, inverse_document_freq 1 2⟩ ∧
    findRec (AddIndexes tokW blogD (AddIndexes tokW blogD stateB)).weightTable "cat" =
      none ∧
    ¬ ∃ r2, findRec (AddIndexes tokW blogD
        (AddIndexes tokW blogD stateB)).weightTable "cat" = some r2 ∧
      r2.total_blogs = 2 := by
  refine ⟨rfl, rfl, ?_⟩
  rintro ⟨r2, hr2, _⟩
  rw [(rfl : findRec (AddIndexes tokW blogD
    (AddIndexes tokW blogD stateB)).weightTable "cat" = none)] at hr2
  cases hr2

/-- The inverted-index entry count of one `(term, blog)` pair increases by
the number of counted tokens of that text during `newIndexes`. -/
lemma foldl_newIndexesStep_count (wt : List WeightDoc) (blogID : String) (norm : ℝ)
    (freq : List (Token × Nat)) (t : String) :
    ∀ acc : List Inverted_Index × Term_Weight,
      (((freq.foldl (newIndexesStep wt blogID norm) acc).1).filter
        (fun e => e.term == t && e.blog_id == blogID)).length =
      (acc.1.filter (fun e => e.term == t && e.blog_id == blogID)).length +
        (freq.filter (fun p => p.1.text == t)).length := by
  induction freq with
  | nil => intro acc; simp
  | cons q qs ih =>
    intro acc
    simp only [List.foldl_cons]
    rw [ih]
    have hstep : (newIndexesStep wt blogID norm acc q).1.filter
        (fun e => e.term == t && e.blog_id == blogID) =
        acc.1.filter (fun e => e.term == t && e.blog_id == blogID) ++
        (if q.1.text == t then
          [(⟨q.1.text, blogID, term_freq (q.2 : ℤ) norm,
            tf_idf (term_freq (q.2 : ℤ) norm)
              (((findRec wt q.1.text).getD acc.2).idf)⟩ : Inverted_Index)]
          else []) := by
      simp only [newIndexesStep, List.filter_append]
      congr 1
      by_cases hq : q.1.text = t
      · rw [if_pos (by simpa using hq)]
        rw [List.filter_cons, List.filter_nil]
        rw [if_pos (by simp [hq])]
      · rw [if_neg (by simpa using hq)]
        rw [List.filter_cons, List.filter_nil]
        rw [if_neg (by simp [hq])]
    rw [hstep, List.length_append]
    by_cases hq : q.1.text = t
    · rw [if_pos (by simpa using hq), List.filter_cons_of_pos (by simpa using hq)]
      simp only [List.length_cons, List.length_singleton, List.length_nil]
      omega
    · rw [if_neg (by simpa using hq), List.filter_cons_of_neg (by simpa using hq)]
      simp

lemma newIndexes_count (s : DBState) (freq : List (Token × Nat)) (blogID : String)
    (norm : ℝ) (t : String) :
    (((newIndexes s freq blogID norm).termTable).filter
      (fun e => e.term == t && e.blog_id == blogID)).length =
    (s.termTable.filter (fun e => e.term == t && e.blog_id == blogID)).length +
      (freq.filter (fun p => p.1.text == t)).length :=
  foldl_newIndexesStep_count s.weightTable blogID norm freq t (s.termTable, emptyTW)

lemma AddIndexes_count (tok : String → List Token) (d : Blog) (s : DBState) (t : String) :
    ((AddIndexes tok d s).termTable.filter
      (fun e => e.term == t && e.blog_id == d.blog_id)).length =
    (s.termTable.filter (fun e => e.term == t && e.blog_id == d.blog_id)).length +
      ((count_occurences (tok (blobOf d))).filter (fun p => p.1.text == t)).length := by
  show (((newIndexes (updateIDF { s with tokStream := ([] : List Token) }
      (count_occurences (tok (blobOf d)))) (count_occurences (tok (blobOf d)))
      d.blog_id (euclidean_norm (count_occurences (tok (blobOf d))))).termTable).filter
      (fun e => e.term == t && e.blog_id == d.blog_id)).length = _
  rw [newIndexes_count]
  rfl

/-- C7 (amended): `AddIndexes` is not idempotent.  For every store state, a
second `AddIndexes(D)` inserts a second inverted-index entry for each
`(term, document)` pair of `D` — the stores are not left unchanged.  But
instead of incrementing `total_documents_containing_term`, the second pass's
operator-free update replaces each term's `TermStatistic` with a termless
`{set: …}` document: from a fresh statistics store, after the first pass
every term of `D` has a count-1 record, and after the second pass it has no
record at all. -/
theorem addIndexes_not_idempotent (tok : String → List Token) (D : Blog)
    (hdist : (((count_occurences (tok (blobOf D))).map Prod.fst).map Token.text).Nodup)
    (hne : ∀ p ∈ count_occurences (tok (blobOf D)), p.1.text ≠ "") :
    (∀ s : DBState, ∀ p ∈ count_occurences (tok (blobOf D)),
      ((AddIndexes tok D (AddIndexes tok D s)).termTable.filter
        (fun e => e.term == p.1.text && e.blog_id == D.blog_id)).length =
      ((AddIndexes tok D s).termTable.filter
        (fun e => e.term == p.1.text && e.blog_id == D.blog_id)).length + 1) ∧
    (∀ s : DBState, s.weightTable = [] →
      ∀ p ∈ count_occurences (tok (blobOf D)),
        findRec (AddIndexes tok D s).weightTable p.1.text =
          some ⟨p.1.text, 1, inverse_document_freq 1 (s.blogTable.length : ℤ)⟩ ∧
        findRec (AddIndexes tok D (AddIndexes tok D s)).weightTable p.1.text = none) := by
  constructor
  · intro s p hp
    rw [AddIndexes_count]
    have hpkey : p.1 ∈ (count_occurences (tok (blobOf D))).map Prod.fst :=
      List.mem_map_of_mem Prod.fst hp
    have hfilter : ((count_occurences (tok (blobOf D))).map Prod.fst).filter
        (fun k => k.text == p.1.text) = [p.1] :=
      filter_eq_singleton_of_nodup _ p.1.text p.1 hdist hpkey rfl
    have hpairs : ((count_occurences (tok (blobOf D))).filter
        (fun q => q.1.text == p.1.text)).length = 1 := by
      have h := keys_filter_of_pair_filter (count_occurences (tok (blobOf D))) p.1.text
      have hlen : (((count_occurences (tok (blobOf D))).filter
          (fun q => q.1.text == p.1.text)).map Prod.fst).length = 1 := by
        rw [← h, hfilter]
        rfl
      simpa using hlen
    rw [hpairs]
  · intro s hwt p hp
    have hpkey : p.1 ∈ (count_occurences (tok (blobOf D))).map Prod.fst :=
      List.mem_map_of_mem Prod.fst hp
    have hfilter : ((count_occurences (tok (blobOf D))).map Prod.fst).filter
        (fun k => k.text == p.1.text) = [p.1] :=
      filter_eq_singleton_of_nodup _ p.1.text p.1 hdist hpkey rfl
    have habs : ∀ k ∈ (count_occurences (tok (blobOf D))).map Prod.fst,
        findRec ({ s with tokStream := ([] : List Token) } : DBState).weightTable
          k.text = none := by
      intro k _
      show findRec s.weightTable k.text = none
      rw [hwt]
      rfl
    have hwt1 : (AddIndexes tok D s).weightTable =
        ((count_occurences (tok (blobOf D))).map Prod.fst).map
          (fun k => WeightDoc.record ⟨k.text, 1,
            inverse_document_freq 1 (s.blogTable.length : ℤ)⟩) := by
      rw [AddIndexes_weightTable, updateIDF_weightTable_insert_all _ _ habs hdist]
      show s.weightTable ++ _ = _
      rw [hwt]
      rfl
    have hfind1 : findRec (AddIndexes tok D s).weightTable p.1.text =
        some ⟨p.1.text, 1, inverse_document_freq 1 (s.blogTable.length : ℤ)⟩ := by
      rw [hwt1]
      exact findRec_insert_map _ _ p.1.text ⟨p.1, hpkey, rfl⟩
    refine ⟨hfind1, ?_⟩
    have hcount1 : recCount (AddIndexes tok D s).weightTable p.1.text ≤ 1 := by
      rw [hwt1, recCount_insert_map, hfilter]
      simp
    exact AddIndexes_findRec_destroy tok D (AddIndexes tok D s) p.1.text p.1 _
      (hne p hp) hfilter hfind1 hcount1

/-! ## Asymmetric tokenization filtering (C10) -/

/-- Upper bound on the inverted-index entries after `newIndexes`: an entry
either pre-existed or carries the text of one of the counted tokens. -/
lemma newIndexes_mem_upper (s : DBState) (freq : List (Token × Nat)) (blogID : String)
    (norm : ℝ) :
    ∀ e ∈ (newIndexes s freq blogID norm).termTable,
      e ∈ s.termTable ∨ ∃ p ∈ freq, e.term = p.1.text ∧ e.blog_id = blogID := by
  unfold newIndexes
  suffices h : ∀ acc : List Inverted_Index × Term_Weight,
      ∀ e ∈ (freq.foldl (newIndexesStep s.weightTable blogID norm) acc).1,
        e ∈ acc.1 ∨ ∃ p ∈ freq, e.term = p.1.text ∧ e.blog_id = blogID by
    exact h (s.termTable, emptyTW)
  induction freq with
  | nil => intro acc e he; exact Or.inl he
  | cons q qs ih =>
    intro acc e he
    simp only [List.foldl_cons] at he
    rcases ih _ e he with h | ⟨p, hp, hterm, hblog⟩
    · simp only [newIndexesStep] at h
      rcases List.mem_append.mp h with h | h
      · exact Or.inl h
      · refine Or.inr ⟨q, List.mem_cons_self _ _, ?_, ?_⟩
        · rw [List.mem_singleton.mp h]
        · rw [List.mem_singleton.mp h]
    · exact Or.inr ⟨p, List.mem_cons_of_mem _ hp, hterm, hblog⟩

/-- If every token of a document's blob with text `u` is whitespace or
markup, indexing the document creates no `u` entry. -/
lemma AddIndexes_no_entry (tok : String → List Token) (d : Blog) (s : DBState) (u : String)
    (hs : ∀ e ∈ s.termTable, e.term ≠ u)
    (hd : ∀ t ∈ tok (blobOf d), t.text = u → t.isSpace = true ∨ t.isHTML = true) :
    ∀ e ∈ (AddIndexes tok d s).termTable, e.term ≠ u := by
  intro e he
  have hupper := newIndexes_mem_upper
    (updateIDF { s with tokStream := ([] : List Token) }
      (count_occurences (tok (blobOf d))))
    (count_occurences (tok (blobOf d))) d.blog_id
    (euclidean_norm (count_occurences (tok (blobOf d)))) e he
  rcases hupper with h | ⟨p, hp, hterm, _⟩
  · exact hs e h
  · intro hc
    obtain ⟨hmem, hsp, hht⟩ := count_occurences_keys (tok (blobOf d)) p hp
    rcases hd p.1 hmem (by rw [← hterm, hc]) with h | h
    · rw [hsp] at h; cases h
    · rw [hht] at h; cases h

/-- C10: the two public operations filter tokens asymmetrically — `Query`
keeps every non-whitespace token (markup included) as a query term, while
the occurrence counting behind `AddIndexes` drops whitespace AND markup
tokens; consequently a markup query term whose text never occurs as an
indexable token of an indexed document matches no inverted-index entry. -/
theorem tokenization_asymmetric_filtering
    (tok : String → List Token) (toksQ toksD : List Token) (s0 : DBState)
    (ds : List Blog) (u : String)
    (hs0 : ∀ e ∈ s0.termTable, e.term ≠ u)
    (hmk : ∀ d ∈ ds, ∀ t ∈ tok (blobOf d), t.text = u →
      t.isSpace = true ∨ t.isHTML = true) :
    (∀ t ∈ toksQ, t.isSpace = false → t.text ∈ queryTerms toksQ) ∧
    (∀ p ∈ count_occurences toksD, p.1.isSpace = false ∧ p.1.isHTML = false) ∧
    (∀ e ∈ (ds.foldl (fun s d => AddIndexes tok d s) s0).termTable, e.term ≠ u) := by
  refine ⟨?_, ?_, ?_⟩
  · intro t ht hs
    exact (mem_queryTerms_iff toksQ t.text).mpr ⟨t, ht, hs, rfl⟩
  · intro p hp
    exact (count_occurences_keys toksD p hp).2
  · induction ds generalizing s0 with
    | nil => exact hs0
    | cons d ds ih =>
      simp only [List.foldl_cons]
      exact ih (AddIndexes tok d s0)
        (AddIndexes_no_entry tok d s0 u hs0 (hmk d (List.mem_cons_self _ _)))
        (fun d' hd' => hmk d' (List.mem_cons_of_mem _ hd'))

/-! ## Witnesses -/

/-- Witness for `addIndexes_then_query_returns_document`: indexing the
document `D1` (text `cat`) into an empty store and querying `cat` returns
`D1`. -/
theorem addIndexes_then_query_returns_document_witness :
    (∃ t ∈ tokW (blobOf blogD), t.isSpace = false ∧ t.isHTML = false ∧ t.text = "cat") ∧
    (∀ e ∈ stateEmpty.termTable, e.term ≠ "cat") ∧
    (∃ t ∈ tokW "cat", t.isSpace = false ∧ t.text = "cat") ∧
    "D1" ∈ Query tokW (AddIndexes tokW blogD stateEmpty) "cat" := by
  have h1 : ∃ t ∈ tokW (blobOf blogD), t.isSpace = false ∧ t.isHTML = false ∧
      t.text = "cat" := by decide
  have h2 : ∀ e ∈ stateEmpty.termTable, e.term ≠ "cat" := by
    intro e he
    cases he
  have h3 : ∃ t ∈ tokW "cat", t.isSpace = false ∧ t.text = "cat" := by decide
  exact ⟨h1, h2, h3,
    addIndexes_then_query_returns_document tokW stateEmpty blogD "cat" "cat" h1 h2 h3⟩

/-- Witness for `addIndexes_not_idempotent`: indexing `D1` twice takes the
`(cat, D1)` entry count from 1 to 2, while `cat`'s statistic goes from a
count-1 record to no record at all. -/
theorem addIndexes_not_idempotent_witness :
    ((((count_occurences (tokW (blobOf blogD))).map Prod.fst).map Token.text).Nodup) ∧
    ((catTok, 1) ∈ count_occurences (tokW (blobOf blogD))) ∧
    ((AddIndexes tokW blogD (AddIndexes tokW blogD stateB)).termTable.filter
        (fun e => e.term == "cat" && e.blog_id == "D1")).length =
      ((AddIndexes tokW blogD stateB).termTable.filter
        (fun e => e.term == "cat" && e.blog_id == "D1")).length + 1 ∧
    findRec (AddIndexes tokW blogD stateB).weightTable "cat" =
      some ⟨"cat", 1, inverse_document_freq 1 (stateB.blogTable.length : ℤ)⟩ ∧
    findRec (AddIndexes tokW blogD (AddIndexes tokW blogD stateB)).weightTable "cat" =
      none := by
  have hdist : (((count_occurences (tokW (blobOf blogD))).map Prod.fst).map
      Token.text).Nodup := by decide
  have hne : ∀ p ∈ count_occurences (tokW (blobOf blogD)), p.1.text ≠ "" := by decide
  have hmem : (catTok, 1) ∈ count_occurences (tokW (blobOf blogD)) := by decide
  have h := addIndexes_not_idempotent tokW blogD hdist hne
  exact ⟨hdist, hmem, h.1 stateB (catTok, 1) hmem,
    (h.2 stateB rfl (catTok, 1) hmem).1, (h.2 stateB rfl (catTok, 1) hmem).2⟩

/-- Witness for `tokenization_asymmetric_filtering`: the markup token `<b>`
is kept as a query term, is never counted by indexing, and after indexing a
document whose only `<b>` token is markup there is no `<b>` index entry. -/
theorem tokenization_asymmetric_filtering_witness :
    (∀ d ∈ [blogH], ∀ t ∈ tokW (blobOf d), t.text = "<b>" →
      t.isSpace = true ∨ t.isHTML = true) ∧
    (∀ t ∈ [htmlTok], t.isSpace = false → t.text ∈ queryTerms [htmlTok]) ∧
    (∀ p ∈ count_occurences [htmlTok, catTok],
      p.1.isSpace = false ∧ p.1.isHTML = false) ∧
    (∀ e ∈ ([blogH].foldl (fun s d => AddIndexes tokW d s) stateEmpty).termTable,
      e.term ≠ "<b>") := by
  have hs0 : ∀ e ∈ stateEmpty.termTable, e.term ≠ "<b>" := by
    intro e he
    cases he
  have hmk : ∀ d ∈ [blogH], ∀ t ∈ tokW (blobOf d), t.text = "<b>" →
      t.isSpace = true ∨ t.isHTML = true := by
    intro d hd
    rcases List.mem_cons.mp hd with rfl | hd
    · decide
    · cases hd
  have h := tokenization_asymmetric_filtering tokW [htmlTok] [htmlTok, catTok]
    stateEmpty [blogH] "<b>" hs0 hmk
  exact ⟨hmk, h.1, h.2.1, h.2.2⟩

end Searcher
